import Mathlib

/-!
Shallow embedding of the distributed coordination layer in
`src/modules/mpi_lib.c` (task partitioning, typed messaging, distributed
matrix/vector handles, eigensolver dispatch, gather-based vector output).

C `size_t` arithmetic is modelled on `Nat` with explicit reduction modulo
`2 ^ 64`; fallible operations (the fatal error paths) return `Except`.
The PETSc / MPI substrate behind the wrappers is not part of the sources;
where a wrapper delegates to it, the delegation is modelled by an explicit
argument (e.g. the converged-eigenpair count) or by the standard message
semantics stated in the spec, and this is noted at each definition.
-/

namespace Cscatt

/-- Width of the 64-bit `size_t` machine word: all static state in
`mpi_lib.c` (`this_rank`, `comm_size`, `chunk_size`, `tasks`,
`extra_tasks`, `last_rank_index`) has type `size_t`. -/
def W : Nat := 2 ^ 64

/-- C unsigned 64-bit addition. -/
def add64 (a b : Nat) : Nat := (a + b) % W

/-- C unsigned 64-bit subtraction (wraps modulo `2 ^ 64`). -/
def sub64 (a b : Nat) : Nat := (a % W + (W - b % W)) % W

/-- C unsigned 64-bit multiplication. -/
def mul64 (a b : Nat) : Nat := (a * b) % W

/-- The task-partitioner state set by `mpi_set_tasks()`:
`tasks`, `chunk_size`, `extra_tasks`, `last_rank_index` in `mpi_lib.c`. -/
structure TaskState where
  tasks : Nat
  chunk_size : Nat
  extra_tasks : Nat
  last_rank_index : Nat

/-- `mpi_set_tasks(max_task)` (mpi_lib.c:311-319):
`chunk_size = max_task/comm_size;`
`last_rank_index = (comm_size - 1)*chunk_size + (chunk_size - 1);`
`extra_tasks = (max_task - 1) - last_rank_index;`
all in `size_t` arithmetic. `comm_size` is passed explicitly here in place
of the static variable. -/
def mpi_set_tasks (max_task comm_size : Nat) : TaskState :=
  let chunk_size := max_task / comm_size
  let last_rank_index := add64 (mul64 (sub64 comm_size 1) chunk_size) (sub64 chunk_size 1)
  { tasks := max_task
    chunk_size := chunk_size
    extra_tasks := sub64 (sub64 max_task 1) last_rank_index
    last_rank_index := last_rank_index }

/-- `mpi_first_task()` (mpi_lib.c:330-333): `return this_rank*chunk_size;`.
`this_rank` is passed explicitly in place of the static variable. -/
def mpi_first_task (st : TaskState) (this_rank : Nat) : Nat :=
  mul64 this_rank st.chunk_size

/-- `mpi_last_task()` (mpi_lib.c:345-348):
`return this_rank*chunk_size + (chunk_size - 1);` in `size_t` arithmetic. -/
def mpi_last_task (st : TaskState) (this_rank : Nat) : Nat :=
  add64 (mul64 this_rank st.chunk_size) (sub64 st.chunk_size 1)

/-- `mpi_extra_task()` (mpi_lib.c:361-366):
`index = (extra_tasks > 0? last_rank_index + this_rank + 1 : 0);`
`return (index < tasks? index : 0);` in `size_t` arithmetic. -/
def mpi_extra_task (st : TaskState) (this_rank : Nat) : Nat :=
  let index := if 0 < st.extra_tasks then add64 (add64 st.last_rank_index this_rank) 1 else 0
  if index < st.tasks then index else 0

/-- Modelled from the spec: a rank "has an extra task" exactly when
`extra > 0` and `rank < extra` — the spec (section 4.2) states that callers
distinguish a real extra task from the sentinel 0 "by checking
`extra > 0` and `rank < extra` rather than trusting the sentinel value
alone". No function of `mpi_lib.c` computes this guard itself. -/
def has_extra_task (st : TaskState) (this_rank : Nat) : Prop :=
  0 < st.extra_tasks ∧ this_rank < st.extra_tasks

/-- Task ownership of one rank: the main chunk
`[mpi_first_task, mpi_first_task + chunk_size)` plus, when the rank has an
extra task, the index returned by `mpi_extra_task()`. -/
def owns (st : TaskState) (this_rank t : Nat) : Prop :=
  (mpi_first_task st this_rank ≤ t ∧ t < mpi_first_task st this_rank + st.chunk_size) ∨
    (has_extra_task st this_rank ∧ t = mpi_extra_task st this_rank)

/-- The closed set of element type codes accepted by `mpi_send()` /
`mpi_receive()`: the switch cases `'i'`, `'c'`, `'f'`, `'d'`
(mpi_lib.c:412-433 and 469-490); any other code hits the `default:` branch
(`PRINT_ERROR` then `exit(EXIT_FAILURE)`). -/
def supported_type (type : Char) : Bool :=
  type = 'i' || type = 'c' || type = 'f' || type = 'd'

/-- A wire message of `mpi_send()`: the `size_t` count sent first on the
control channel (tag 666) and the typed payload sent on the data channel
(tag 667). The element type is abstracted by `α`. -/
structure Message (α : Type) where
  header : Nat
  payload : List α

/-- `mpi_send(to, n, type, data)` (mpi_lib.c:397-437): sends `n` as a
length header, then `n` elements of `data`; an unsupported type code is a
fatal error (modelled as `Except.error`). The destination rank only routes
the message and is elided; the substrate transport is modelled by
returning the message placed on the wire. -/
def mpi_send {α : Type} (n : Nat) (type : Char) (data : List α) :
    Except String (Message α) :=
  if supported_type type then Except.ok ⟨n, data.take n⟩
  else Except.error "invalid type"

/-- `mpi_receive(from, n, type, data)` (mpi_lib.c:450-494): reads the
sender's header, computes `m = min(n, m)`, then receives exactly `m` typed
elements into the first `m` positions of `data`; an unsupported type code
is a fatal error. The matched wire message is passed explicitly; storing
`m` elements of the payload into a buffer is the standard substrate
receive semantics (`MPI_Recv` with count `m`). -/
def mpi_receive {α : Type} (n : Nat) (type : Char) (data : List α) (msg : Message α) :
    Except String (List α) :=
  let m := min n msg.header
  if supported_type type then Except.ok (msg.payload.take m ++ data.drop m)
  else Except.error "invalid type"

/-- The distributed (`USE_PETSC`) `mpi_matrix` handle: logical shape
`max_row × max_col`, row-ownership range `[first, last)` from
`MatGetOwnershipRange()`, and the staged entries. Entry values (C
`double`) are abstracted as `Int`; only storing and retrieving them
matters here. -/
structure mpi_matrix_petsc where
  max_row : Nat
  max_col : Nat
  first : Nat
  last : Nat
  entries : Nat → Nat → Int

/-- The local (dense, non-PETSc) `mpi_matrix` handle: a dense
`max_row × max_col` buffer from `matrix_alloc()`. -/
structure mpi_matrix_local where
  max_row : Nat
  max_col : Nat
  entries : Nat → Nat → Int

/-- `mpi_matrix_set(m, p, q, x)`, `USE_PETSC` branch (mpi_lib.c:631-650):
`if ((p >= m->first) && (p < m->last)) MatSetValue(m->data, p, q, x, INSERT_VALUES);`
— a silent no-op when `p` is outside the ownership range. -/
def mpi_matrix_set_petsc (m : mpi_matrix_petsc) (p q : Nat) (x : Int) : mpi_matrix_petsc :=
  if m.first ≤ p ∧ p < m.last then
    { m with entries := fun p2 q2 => if p2 = p ∧ q2 = q then x else m.entries p2 q2 }
  else m

/-- `mpi_matrix_set(m, p, q, x)`, local branch (mpi_lib.c:645-649):
`matrix_set(m->data, p, q, x);` — unconditional dense store
(`DATA_OFFSET(m, p, q) = x` in the matrix module). -/
def mpi_matrix_set_local (m : mpi_matrix_local) (p q : Nat) (x : Int) : mpi_matrix_local :=
  { m with entries := fun p2 q2 => if p2 = p ∧ q2 = q then x else m.entries p2 q2 }

/-- Spectral end requested from the iterative eigensolver:
`EPS_LARGEST_REAL` or `EPS_SMALLEST_REAL`. -/
inductive eps_which where
  | largest_real : eps_which
  | smallest_real : eps_which
deriving DecidableEq

/-- The solver configuration assembled by the `USE_PETSC && USE_SLEPC`
branch of `mpi_matrix_sparse_eigen()`: number of requested eigenpairs
(`EPSSetDimensions(solver, n, 2*n + 10, PETSC_DECIDE)`), spectral end
(`EPSSetWhichEigenpairs`), and `EPSSetTolerances(solver, tol, max_step)`.
The tolerance (C `double`) is abstracted as `ℚ`; it is only passed
through. -/
structure eps_config where
  nev : Nat
  ncv : Nat
  which : eps_which
  max_step : Nat
  tol : ℚ

/-- `mpi_matrix_sparse_eigen(m, n, max_step, tol, up)`, distributed branch
(mpi_lib.c:806-848): configures the Krylov-Schur solver with
`EPSSetDimensions(solver, n, 2*n + 10, PETSC_DECIDE)`, the spectral end
`(up? EPS_LARGEST_REAL : EPS_SMALLEST_REAL)`, tolerances `(tol, max_step)`,
solves, and returns `EPSGetConverged`. The backend solve is modelled by
the explicit function `converged` from configurations to the number of
eigenpairs that converged. -/
def mpi_matrix_sparse_eigen_petsc (converged : eps_config → Nat)
    (n max_step : Nat) (tol : ℚ) (up : Bool) : Nat :=
  converged
    { nev := n
      ncv := 2 * n + 10
      which := if up then eps_which.largest_real else eps_which.smallest_real
      max_step := max_step
      tol := tol }

/-- `mpi_matrix_sparse_eigen(m, n, max_step, tol, up)`, local branch
(mpi_lib.c:849-854): `m->eigenval = matrix_symm_eigen(m->data, 'v');
return matrix_rows(m->data);` — a full dense symmetric eigendecomposition
whose return value is the row count; `n`, `max_step`, `tol`, `up` are not
read. -/
def mpi_matrix_sparse_eigen_local (m : mpi_matrix_local)
    (n max_step : Nat) (tol : ℚ) (up : Bool) : Nat :=
  m.max_row

/-- The ascending index list a rank contributes in `mpi_vector_write()`:
`for (int n = max(n_min, v->first); n < min(n_max, v->last); ++n)`
(mpi_lib.c:977 for the root's own writes, mpi_lib.c:1011 for a non-root
sender). -/
def send_indices (first last n_min n_max : Nat) : List Nat :=
  List.range' (max n_min first) (min n_max last - max n_min first)

/-- `mpi_vector_write(v, n_min, n_max, stream)`, distributed branch
(mpi_lib.c:966-1020), with the vector given by its per-rank ownership
ranges `(first, last)` (rank 0 head) and its global values. The root
writes its own elements of `[n_min, n_max)` in ascending index order, then
drains ranks `1, …, size-1` in ascending rank order (`for (int from = 1;
from < mpi_comm_size(); ++from) while (mpi_inbox(from)) …`); each non-root
rank sends its own elements of `[n_min, n_max)` one per message in
ascending index order. The FIFO channel is modelled synchronously: the
drain of a rank yields exactly that rank's sends in send order. -/
def mpi_vector_write_petsc (ownership : List (Nat × Nat)) (value : Nat → Int)
    (n_min n_max : Nat) : List Int :=
  match ownership with
  | [] => []
  | fl0 :: rest =>
      (send_indices fl0.1 fl0.2 n_min n_max).map value ++
        rest.flatMap (fun fl => (send_indices fl.1 fl.2 n_min n_max).map value)

/-- `mpi_vector_write(v, n_min, n_max, stream)`, local (non-PETSc) branch
(mpi_lib.c:1021-1025): `fwrite(v->data + n_min, sizeof(double), n_max,
stream);` — it writes `n_max` items starting at offset `n_min` (not
`n_max - n_min` items). -/
def mpi_vector_write_local (v : List Int) (n_min n_max : Nat) : List Int :=
  (v.drop n_min).take n_max

/-- The (source rank, element index) trace of the distributed
`mpi_vector_write()` output, root first, tagging every written value with
the rank that produced it; `k` is the rank of the list head. -/
def gather_trace_from (k : Nat) (ownership : List (Nat × Nat)) (n_min n_max : Nat) :
    List (Nat × Nat) :=
  match ownership with
  | [] => []
  | fl :: rest =>
      (send_indices fl.1 fl.2 n_min n_max).map (fun i => (k, i)) ++
        gather_trace_from (k + 1) rest n_min n_max

/-- The (source rank, element index) trace of the distributed
`mpi_vector_write()` output, ranks numbered from 0. -/
def gather_trace (ownership : List (Nat × Nat)) (n_min n_max : Nat) : List (Nat × Nat) :=
  gather_trace_from 0 ownership n_min n_max

/-! Arithmetic facts about the `size_t` helpers and the partitioner state. -/

theorem W_pos : 0 < W := by norm_num [W]

theorem sub64_eq_of_le {a b : Nat} (hb : b ≤ a) (ha : a < W) : sub64 a b = a - b := by
  have hbW : b < W := lt_of_le_of_lt hb ha
  unfold sub64
  rw [Nat.mod_eq_of_lt ha, Nat.mod_eq_of_lt hbW]
  have h : a + (W - b) = W + (a - b) := by omega
  rw [h, Nat.add_mod_left, Nat.mod_eq_of_lt (by omega)]

theorem add64_eq_of_lt {a b : Nat} (h : a + b < W) : add64 a b = a + b := by
  unfold add64
  exact Nat.mod_eq_of_lt h

theorem mul64_eq_of_lt {a b : Nat} (h : a * b < W) : mul64 a b = a * b := by
  unfold mul64
  exact Nat.mod_eq_of_lt h

theorem sub64_zero_one : sub64 0 1 = W - 1 := by decide

theorem set_tasks_chunk (T S : Nat) : (mpi_set_tasks T S).chunk_size = T / S := rfl

theorem set_tasks_tasks (T S : Nat) : (mpi_set_tasks T S).tasks = T := rfl

theorem set_tasks_lri (T S : Nat) :
    (mpi_set_tasks T S).last_rank_index =
      add64 (mul64 (sub64 S 1) (T / S)) (sub64 (T / S) 1) := rfl

theorem set_tasks_extra (T S : Nat) :
    (mpi_set_tasks T S).extra_tasks =
      sub64 (sub64 T 1) ((mpi_set_tasks T S).last_rank_index) := rfl

theorem lri_of_pos {T S : Nat} (hS : 0 < S) (hSW : S < W) (hTW : T < W)
    (hcs : 0 < T / S) :
    (mpi_set_tasks T S).last_rank_index = S * (T / S) - 1 := by
  have hSc : S * (T / S) ≤ T := by rw [mul_comm]; exact Nat.div_mul_le_self T S
  have hcsT : T / S ≤ T := Nat.div_le_self T S
  have h1 : S * (T / S) = (S - 1) * (T / S) + T / S := by
    rcases S with _ | s
    · omega
    · simp [Nat.succ_sub_one, Nat.succ_mul]
  rw [set_tasks_lri, sub64_eq_of_le (show 1 ≤ S by omega) hSW,
    sub64_eq_of_le (show 1 ≤ T / S by omega) (lt_of_le_of_lt hcsT hTW),
    mul64_eq_of_lt (by omega), add64_eq_of_lt (by omega)]
  omega

theorem extra_of_pos {T S : Nat} (hS : 0 < S) (hSW : S < W) (hTW : T < W)
    (hcs : 0 < T / S) :
    (mpi_set_tasks T S).extra_tasks = T - S * (T / S) := by
  have hST : S ≤ T := (Nat.one_le_div_iff hS).mp hcs
  have hSc : S * (T / S) ≤ T := by rw [mul_comm]; exact Nat.div_mul_le_self T S
  have hScpos : 0 < S * (T / S) := Nat.mul_pos hS hcs
  have h1 : sub64 T 1 = T - 1 := sub64_eq_of_le (by omega) (by omega)
  rw [set_tasks_extra, lri_of_pos hS hSW hTW hcs, h1,
    sub64_eq_of_le (by omega) (by omega)]
  omega

theorem lri_of_zero {T S : Nat} (hS : 0 < S) (hSW : S < W) (hcs : T / S = 0) :
    (mpi_set_tasks T S).last_rank_index = W - 1 := by
  have hW : 0 < W := W_pos
  rw [set_tasks_lri, hcs, sub64_eq_of_le (show 1 ≤ S by omega) hSW,
    show mul64 (S - 1) 0 = 0 by simp [mul64], sub64_zero_one,
    add64_eq_of_lt (by omega)]
  omega

theorem extra_of_zero {T S : Nat} (hT : 0 < T) (hTW : T < W) (hS : 0 < S)
    (hSW : S < W) (hcs : T / S = 0) :
    (mpi_set_tasks T S).extra_tasks = T := by
  have hW : 0 < W := W_pos
  have h1 : sub64 T 1 = T - 1 := sub64_eq_of_le (by omega) hTW
  rw [set_tasks_extra, lri_of_zero hS hSW hcs, h1]
  unfold sub64
  rw [Nat.mod_eq_of_lt (show T - 1 < W by omega), Nat.mod_eq_of_lt (show W - 1 < W by omega),
    show T - 1 + (W - (W - 1)) = T by omega, Nat.mod_eq_of_lt hTW]

theorem extra_task_of_pos {T S r : Nat} (hS : 0 < S) (hSW : S < W) (hTW : T < W)
    (hcs : 0 < T / S) (hr : r < T - S * (T / S)) :
    mpi_extra_task (mpi_set_tasks T S) r = S * (T / S) + r := by
  have hSc : S * (T / S) ≤ T := by rw [mul_comm]; exact Nat.div_mul_le_self T S
  have hScpos : 0 < S * (T / S) := Nat.mul_pos hS hcs
  have ha1 : add64 (S * (T / S) - 1) r = S * (T / S) - 1 + r := add64_eq_of_lt (by omega)
  have ha2 : add64 (S * (T / S) - 1 + r) 1 = S * (T / S) - 1 + r + 1 :=
    add64_eq_of_lt (by omega)
  simp only [mpi_extra_task]
  rw [extra_of_pos hS hSW hTW hcs, lri_of_pos hS hSW hTW hcs, set_tasks_tasks,
    if_pos (show 0 < T - S * (T / S) by omega), ha1, ha2,
    show S * (T / S) - 1 + r + 1 = S * (T / S) + r by omega,
    if_pos (by omega)]

theorem extra_task_of_pos_none {T S r : Nat} (hS : 0 < S) (hSW : S < W) (hTW : T < W)
    (hcs : 0 < T / S) (hW : T + S ≤ W) (hrS : r < S) (hr : T - S * (T / S) ≤ r) :
    mpi_extra_task (mpi_set_tasks T S) r = 0 := by
  have hSc : S * (T / S) ≤ T := by rw [mul_comm]; exact Nat.div_mul_le_self T S
  have hScpos : 0 < S * (T / S) := Nat.mul_pos hS hcs
  have ha1 : add64 (S * (T / S) - 1) r = S * (T / S) - 1 + r := add64_eq_of_lt (by omega)
  have ha2 : add64 (S * (T / S) - 1 + r) 1 = S * (T / S) - 1 + r + 1 :=
    add64_eq_of_lt (by omega)
  simp only [mpi_extra_task]
  rw [extra_of_pos hS hSW hTW hcs, lri_of_pos hS hSW hTW hcs, set_tasks_tasks]
  by_cases hx : 0 < T - S * (T / S)
  · rw [if_pos hx, ha1, ha2,
      show S * (T / S) - 1 + r + 1 = S * (T / S) + r by omega,
      if_neg (by omega)]
  · rw [if_neg hx]
    simp

theorem extra_task_of_zero {T S r : Nat} (hT : 0 < T) (hTW : T < W) (hS : 0 < S)
    (hSW : S < W) (hcs : T / S = 0) (hrW : r < W) :
    mpi_extra_task (mpi_set_tasks T S) r = if r < T then r else 0 := by
  have hW : 0 < W := W_pos
  simp only [mpi_extra_task]
  rw [extra_of_zero hT hTW hS hSW hcs, lri_of_zero hS hSW hcs, set_tasks_tasks, if_pos hT]
  have h1 : add64 (add64 (W - 1) r) 1 = r := by
    unfold add64
    rw [Nat.mod_add_mod, show W - 1 + r + 1 = r + W by omega, Nat.add_mod_right,
      Nat.mod_eq_of_lt hrW]
  rw [h1]

theorem first_task_of_lt {T S r : Nat} (hS : 0 < S) (hTW : T < W) (hr : r < S) :
    mpi_first_task (mpi_set_tasks T S) r = r * (T / S) := by
  have hSc : S * (T / S) ≤ T := by rw [mul_comm]; exact Nat.div_mul_le_self T S
  have h1 : r * (T / S) ≤ S * (T / S) := Nat.mul_le_mul_right _ (le_of_lt hr)
  unfold mpi_first_task
  rw [set_tasks_chunk]
  exact mul64_eq_of_lt (by omega)

theorem chunk_unique {c r1 r2 t : Nat} (h1 : r1 * c ≤ t) (h1' : t < r1 * c + c)
    (h2 : r2 * c ≤ t) (h2' : t < r2 * c + c) : r1 = r2 := by
  rcases lt_trichotomy r1 r2 with h | h | h
  · exfalso
    have h3 : (r1 + 1) * c ≤ r2 * c := Nat.mul_le_mul_right c h
    rw [add_mul, one_mul] at h3
    omega
  · exact h
  · exfalso
    have h3 : (r2 + 1) * c ≤ r1 * c := Nat.mul_le_mul_right c h
    rw [add_mul, one_mul] at h3
    omega

/-- C1: after `mpi_set_tasks(maxTask)` with `maxTask > 0` and comm size
`≥ 1` (both `size_t` values), the union over the ranks `0, …, size-1` of
the main chunk `[mpi_first_task(), mpi_first_task() + chunk_size)`
together with the rank's extra task from `mpi_extra_task()` (when it has
one, i.e. when `extra > 0 ∧ rank < extra`, the guard the spec prescribes
to callers) is exactly `{0, …, maxTask-1}`: every task index below
`maxTask` is owned by exactly one rank, and no rank owns an index
`≥ maxTask`. -/
theorem mpi_task_partition_exact (T S : Nat) (hT : 0 < T) (hTW : T < W)
    (hS : 0 < S) (hSW : S < W) :
    (∀ t, t < T → ∃! r, r < S ∧ owns (mpi_set_tasks T S) r t) ∧
    (∀ r, r < S → ∀ t, owns (mpi_set_tasks T S) r t → t < T) := by
  by_cases hcs : T / S = 0
  · have hTS : T < S := by
      by_contra hh
      have h1 := (Nat.one_le_div_iff hS).mpr (le_of_not_lt hh)
      omega
    have hown : ∀ r t, r < S → (owns (mpi_set_tasks T S) r t ↔ t < T ∧ t = r) := by
      intro r t hr
      unfold owns has_extra_task
      rw [set_tasks_chunk, hcs, extra_of_zero hT hTW hS hSW hcs,
        extra_task_of_zero hT hTW hS hSW hcs (lt_trans hr hSW)]
      constructor
      · rintro (⟨h1, h2⟩ | ⟨⟨h1, h2⟩, h3⟩)
        · omega
        · rw [if_pos h2] at h3
          exact ⟨by omega, h3⟩
      · rintro ⟨h1, h2⟩
        right
        refine ⟨⟨hT, by omega⟩, ?_⟩
        rw [if_pos (show r < T by omega)]
        exact h2
    constructor
    · intro t ht
      refine ⟨t, ⟨lt_trans ht hTS, (hown t t (lt_trans ht hTS)).mpr ⟨ht, rfl⟩⟩, ?_⟩
      rintro r ⟨hr, hro⟩
      have h1 := (hown r t hr).mp hro
      omega
    · intro r hr t hro
      exact ((hown r t hr).mp hro).1
  · have hcs' : 0 < T / S := Nat.pos_of_ne_zero hcs
    have hSc : S * (T / S) ≤ T := by rw [mul_comm]; exact Nat.div_mul_le_self T S
    have hES : T - S * (T / S) < S := by
      have hdm := Nat.div_add_mod T S
      have hm := Nat.mod_lt T hS
      omega
    have hown : ∀ r t, r < S →
        (owns (mpi_set_tasks T S) r t ↔
          (r * (T / S) ≤ t ∧ t < r * (T / S) + T / S) ∨
            (r < T - S * (T / S) ∧ t = S * (T / S) + r)) := by
      intro r t hr
      unfold owns has_extra_task
      rw [set_tasks_chunk, first_task_of_lt hS hTW hr, extra_of_pos hS hSW hTW hcs']
      constructor
      · rintro (h | ⟨⟨h1, h2⟩, h3⟩)
        · exact Or.inl h
        · right
          rw [extra_task_of_pos hS hSW hTW hcs' h2] at h3
          exact ⟨h2, h3⟩
      · rintro (h | ⟨h1, h2⟩)
        · exact Or.inl h
        · right
          refine ⟨⟨by omega, h1⟩, ?_⟩
          rw [extra_task_of_pos hS hSW hTW hcs' h1]
          exact h2
    have hchunk_le : ∀ r : Nat, r < S → r * (T / S) + T / S ≤ S * (T / S) := by
      intro r hr
      have h3 : (r + 1) * (T / S) ≤ S * (T / S) := Nat.mul_le_mul_right _ hr
      rw [add_mul, one_mul] at h3
      exact h3
    constructor
    · intro t ht
      by_cases htX : t < S * (T / S)
      · have hrS : t / (T / S) < S := by
          rw [Nat.div_lt_iff_lt_mul hcs']
          exact htX
        have hdm := Nat.div_add_mod t (T / S)
        have hm := Nat.mod_lt t hcs'
        have hmc : (T / S) * (t / (T / S)) = (t / (T / S)) * (T / S) := mul_comm _ _
        refine ⟨t / (T / S), ⟨hrS, (hown _ t hrS).mpr (Or.inl ⟨by omega, by omega⟩)⟩, ?_⟩
        rintro r ⟨hr, hro⟩
        rcases (hown r t hr).mp hro with h | ⟨h1, h2⟩
        · exact chunk_unique h.1 h.2 (by omega) (by omega)
        · omega
      · refine ⟨t - S * (T / S),
          ⟨by omega, (hown _ t (by omega)).mpr (Or.inr ⟨by omega, by omega⟩)⟩, ?_⟩
        rintro r ⟨hr, hro⟩
        rcases (hown r t hr).mp hro with h | ⟨h1, h2⟩
        · have h4 := hchunk_le r hr
          omega
        · omega
    · intro r hr t hro
      rcases (hown r t hr).mp hro with h | ⟨h1, h2⟩
      · have h4 := hchunk_le r hr
        omega
      · omega

/-- Witness for C1 at `maxTask = 10`, comm size 4. -/
theorem mpi_task_partition_exact_witness :
    (∀ t, t < 10 → ∃! r, r < 4 ∧ owns (mpi_set_tasks 10 4) r t) ∧
    (∀ r, r < 4 → ∀ t, owns (mpi_set_tasks 10 4) r t → t < 10) :=
  mpi_task_partition_exact 10 4 (by norm_num) (by norm_num [W]) (by norm_num)
    (by norm_num [W])

/-- C3 counterexample: at `maxTask = 2^64 - 1`, comm size 10, the `size_t`
sum `last_rank_index + rank + 1` wraps for rank 7: `extra_tasks = 5` and
`last_rank_index + 7 + 1 = 2^64 + 1` is not below `maxTask`, so the claim
says rank 7 gets the sentinel 0, yet `mpi_extra_task()` returns the
nonzero task index 1 — an extra task handed to a rank with
`rank ≥ extra`. -/
theorem mpi_extra_task_wrap_cx :
    (mpi_set_tasks (2 ^ 64 - 1) 10).extra_tasks = 5 ∧
    (mpi_set_tasks (2 ^ 64 - 1) 10).last_rank_index = 2 ^ 64 - 7 ∧
    mpi_extra_task (mpi_set_tasks (2 ^ 64 - 1) 10) 7 = 1 :=
  ⟨by decide, by decide, by decide⟩

/-- C3 (amended): provided the partition arithmetic does not wrap —
comm size `≤ maxTask` (so `chunk_size ≥ 1`) and `maxTask + size ≤ 2^64` —
`mpi_extra_task()` returns `last_rank_index + rank + 1` exactly when
`extra_tasks > 0` and that index is `< maxTask`, and the sentinel 0
otherwise; consequently a nonzero extra-task index is received by at most
one rank and only by ranks with `rank < extra_tasks` (lowest ranks
first). The `size = 4`, `maxTask = 10` scenario is as stated: main chunks
`{0,1},{2,3},{4,5},{6,7}`, `last_rank_index = 7`, `extra = 2`, rank 0→8,
rank 1→9, ranks 2 and 3 → sentinel. -/
theorem mpi_extra_task_formula (T S r : Nat) (hS : 0 < S) (hST : S ≤ T)
    (hW : T + S ≤ W) (hr : r < S) :
    (mpi_extra_task (mpi_set_tasks T S) r =
      if 0 < (mpi_set_tasks T S).extra_tasks ∧
          (mpi_set_tasks T S).last_rank_index + r + 1 < T
        then (mpi_set_tasks T S).last_rank_index + r + 1 else 0) ∧
    (mpi_extra_task (mpi_set_tasks T S) r ≠ 0 →
      r < (mpi_set_tasks T S).extra_tasks) ∧
    (∀ r2, r2 < S → mpi_extra_task (mpi_set_tasks T S) r ≠ 0 →
      mpi_extra_task (mpi_set_tasks T S) r = mpi_extra_task (mpi_set_tasks T S) r2 →
      r = r2) ∧
    ((mpi_set_tasks 10 4).chunk_size = 2 ∧
      (mpi_set_tasks 10 4).last_rank_index = 7 ∧
      (mpi_set_tasks 10 4).extra_tasks = 2 ∧
      (∀ r', r' < 4 →
        mpi_first_task (mpi_set_tasks 10 4) r' = 2 * r' ∧
          mpi_last_task (mpi_set_tasks 10 4) r' = 2 * r' + 1) ∧
      mpi_extra_task (mpi_set_tasks 10 4) 0 = 8 ∧
      mpi_extra_task (mpi_set_tasks 10 4) 1 = 9 ∧
      mpi_extra_task (mpi_set_tasks 10 4) 2 = 0 ∧
      mpi_extra_task (mpi_set_tasks 10 4) 3 = 0) := by
  have hT : 0 < T := lt_of_lt_of_le hS hST
  have hTW : T < W := by omega
  have hSW : S < W := by omega
  have hcs : 0 < T / S := (Nat.one_le_div_iff hS).mpr hST
  have hSc : S * (T / S) ≤ T := by rw [mul_comm]; exact Nat.div_mul_le_self T S
  have hScpos : 0 < S * (T / S) := Nat.mul_pos hS hcs
  have hlri := lri_of_pos hS hSW hTW hcs
  have hex := extra_of_pos hS hSW hTW hcs
  have hval : ∀ r1, r1 < S →
      mpi_extra_task (mpi_set_tasks T S) r1 =
        if r1 < T - S * (T / S) then S * (T / S) + r1 else 0 := by
    intro r1 hr1
    by_cases h : r1 < T - S * (T / S)
    · rw [extra_task_of_pos hS hSW hTW hcs h, if_pos h]
    · rw [extra_task_of_pos_none hS hSW hTW hcs hW hr1 (by omega), if_neg h]
  refine ⟨?_, ?_, ?_, ?_⟩
  · rw [hval r hr, hlri, hex]
    by_cases h : r < T - S * (T / S)
    · rw [if_pos h, if_pos (show _ ∧ _ from ⟨by omega, by omega⟩)]
      omega
    · rw [if_neg h, if_neg (by rintro ⟨h1, h2⟩; omega)]
  · intro hne
    rw [hval r hr] at hne
    rw [hex]
    by_cases h : r < T - S * (T / S)
    · exact h
    · rw [if_neg h] at hne
      exact absurd rfl hne
  · intro r2 hr2 hne heq
    rw [hval r hr] at hne heq
    rw [hval r2 hr2] at heq
    by_cases h : r < T - S * (T / S)
    · rw [if_pos h] at hne heq
      by_cases h2 : r2 < T - S * (T / S)
      · rw [if_pos h2] at heq
        omega
      · rw [if_neg h2] at heq
        omega
    · rw [if_neg h] at hne
      exact absurd rfl hne
  · exact ⟨by decide, by decide, by decide, by decide, by decide, by decide, by decide,
      by decide⟩

/-- Witness for the amended C3 at `maxTask = 10`, comm size 4, rank 1. -/
theorem mpi_extra_task_formula_witness :
    (mpi_extra_task (mpi_set_tasks 10 4) 1 =
      if 0 < (mpi_set_tasks 10 4).extra_tasks ∧
          (mpi_set_tasks 10 4).last_rank_index + 1 + 1 < 10
        then (mpi_set_tasks 10 4).last_rank_index + 1 + 1 else 0) ∧
    (mpi_extra_task (mpi_set_tasks 10 4) 1 ≠ 0 →
      1 < (mpi_set_tasks 10 4).extra_tasks) ∧
    (∀ r2, r2 < 4 → mpi_extra_task (mpi_set_tasks 10 4) 1 ≠ 0 →
      mpi_extra_task (mpi_set_tasks 10 4) 1 = mpi_extra_task (mpi_set_tasks 10 4) r2 →
      1 = r2) ∧
    ((mpi_set_tasks 10 4).chunk_size = 2 ∧
      (mpi_set_tasks 10 4).last_rank_index = 7 ∧
      (mpi_set_tasks 10 4).extra_tasks = 2 ∧
      (∀ r', r' < 4 →
        mpi_first_task (mpi_set_tasks 10 4) r' = 2 * r' ∧
          mpi_last_task (mpi_set_tasks 10 4) r' = 2 * r' + 1) ∧
      mpi_extra_task (mpi_set_tasks 10 4) 0 = 8 ∧
      mpi_extra_task (mpi_set_tasks 10 4) 1 = 9 ∧
      mpi_extra_task (mpi_set_tasks 10 4) 2 = 0 ∧
      mpi_extra_task (mpi_set_tasks 10 4) 3 = 0) :=
  mpi_extra_task_formula 10 4 1 (by norm_num) (by norm_num) (by norm_num [W])
    (by norm_num)

/-- C10: for every `0 < maxTask < size` the unsigned `size_t` arithmetic
in `mpi_set_tasks()` wraps modulo `2^64`: `chunk_size = 0`,
`last_rank_index = 2^64 - 1`, `extra_tasks = maxTask`; consequently
`mpi_first_task()` returns 0 for every rank, `mpi_last_task()` returns
`2^64 - 1` for every rank (not an empty-chunk marker), and
`mpi_extra_task()` returns the caller's own rank when `rank < maxTask`
and the sentinel 0 otherwise. -/
theorem mpi_set_tasks_wrap_small (T S : Nat) (hT : 0 < T) (hTS : T < S)
    (hSW : S < W) :
    (mpi_set_tasks T S).chunk_size = 0 ∧
    (mpi_set_tasks T S).last_rank_index = W - 1 ∧
    (mpi_set_tasks T S).extra_tasks = T ∧
    (∀ r, mpi_first_task (mpi_set_tasks T S) r = 0) ∧
    (∀ r, mpi_last_task (mpi_set_tasks T S) r = W - 1) ∧
    (∀ r, r < W → mpi_extra_task (mpi_set_tasks T S) r = if r < T then r else 0) := by
  have hS : 0 < S := lt_trans hT hTS
  have hTW : T < W := lt_trans hTS hSW
  have hcs : T / S = 0 := Nat.div_eq_of_lt hTS
  have hW : 0 < W := W_pos
  refine ⟨by rw [set_tasks_chunk, hcs], lri_of_zero hS hSW hcs,
    extra_of_zero hT hTW hS hSW hcs, ?_, ?_, ?_⟩
  · intro r
    unfold mpi_first_task
    rw [set_tasks_chunk, hcs]
    simp [mul64]
  · intro r
    unfold mpi_last_task
    rw [set_tasks_chunk, hcs, show mul64 r 0 = 0 by simp [mul64], sub64_zero_one,
      add64_eq_of_lt (by omega)]
    omega
  · intro r hr
    exact extra_task_of_zero hT hTW hS hSW hcs hr

/-- Witness for C10 at `maxTask = 3`, comm size 5. -/
theorem mpi_set_tasks_wrap_small_witness :
    (mpi_set_tasks 3 5).chunk_size = 0 ∧
    (mpi_set_tasks 3 5).last_rank_index = W - 1 ∧
    (mpi_set_tasks 3 5).extra_tasks = 3 ∧
    (∀ r, mpi_first_task (mpi_set_tasks 3 5) r = 0) ∧
    (∀ r, mpi_last_task (mpi_set_tasks 3 5) r = W - 1) ∧
    (∀ r, r < W → mpi_extra_task (mpi_set_tasks 3 5) r = if r < 3 then r else 0) :=
  mpi_set_tasks_wrap_small 3 5 (by norm_num) (by norm_num) (by norm_num [W])

/-- C4: a receive matched with a sender that sent `n'` elements stores
exactly `m = min(n, n')` elements into the buffer: no error is raised on
a length mismatch, positions `m, …, n-1` of the receiver's buffer are
never written (everything from position `m` on is unchanged), and the
result never extends past the buffer's length. -/
theorem mpi_receive_truncation {α : Type} (n : Nat) (type : Char) (buffer : List α)
    (msg : Message α) (hty : supported_type type = true)
    (hlen : msg.payload.length = msg.header) (hbuf : n ≤ buffer.length) :
    ∃ res, mpi_receive n type buffer msg = Except.ok res ∧
      res.length = buffer.length ∧
      res.take (min n msg.header) = msg.payload.take (min n msg.header) ∧
      res.drop (min n msg.header) = buffer.drop (min n msg.header) := by
  refine ⟨msg.payload.take (min n msg.header) ++ buffer.drop (min n msg.header),
    by simp [mpi_receive, hty], ?_, ?_, ?_⟩
  · rw [List.length_append, List.length_take, List.length_drop]
    omega
  · rw [List.take_left' (by rw [List.length_take]; omega)]
  · rw [List.drop_left' (by rw [List.length_take]; omega)]

/-- Witness for C4: a 5-element message received with count 2. -/
theorem mpi_receive_truncation_witness :
    ∃ res, mpi_receive 2 'd' ([0, 0, 0] : List Int) ⟨5, [10, 20, 30, 40, 50]⟩ =
        Except.ok res ∧
      res.length = 3 ∧
      res.take (min 2 5) = ([10, 20, 30, 40, 50] : List Int).take (min 2 5) ∧
      res.drop (min 2 5) = ([0, 0, 0] : List Int).drop (min 2 5) :=
  mpi_receive_truncation 2 'd' [0, 0, 0] ⟨5, [10, 20, 30, 40, 50]⟩ (by decide) (by decide)
    (by decide)

/-- C5: round-trip — `mpi_send(to, n, type, buf)` transmits the count `n`
as the length header before the typed payload, and the matched
`mpi_receive(from, n', type, out)` reads that header, computes the
minimum, and delivers `buf[i]` at position `i` of its result for every
`i < min(n, n')`. -/
theorem mpi_send_receive_roundtrip {α : Type} (n n' : Nat) (type : Char)
    (buf out : List α) (hty : supported_type type = true) (hn : n ≤ buf.length) :
    ∃ msg, mpi_send n type buf = Except.ok msg ∧ msg.header = n ∧
      ∃ res, mpi_receive n' type out msg = Except.ok res ∧
        ∀ i, i < min n n' → res[i]? = buf[i]? := by
  refine ⟨⟨n, buf.take n⟩, by simp [mpi_send, hty], rfl,
    (buf.take n).take (min n' n) ++ out.drop (min n' n),
    by simp [mpi_receive, hty], ?_⟩
  intro i hi
  have him : i < min n' n := by omega
  have hA : (buf.take n).take (min n' n) = buf.take (min n' n) := by
    rw [List.take_take]
    congr 1
    omega
  rw [hA, List.getElem?_append,
    if_pos (by rw [List.length_take]; omega),
    List.getElem?_take, if_pos him]

/-- Witness for C5: a 3-element send received with count 2. -/
theorem mpi_send_receive_roundtrip_witness :
    ∃ msg, mpi_send 3 'd' ([7, 8, 9] : List Int) = Except.ok msg ∧ msg.header = 3 ∧
      ∃ res, mpi_receive 2 'd' ([0, 0] : List Int) msg = Except.ok res ∧
        ∀ i, i < min 3 2 → res[i]? = ([7, 8, 9] : List Int)[i]? :=
  mpi_send_receive_roundtrip 3 2 'd' [7, 8, 9] [0, 0] (by decide) (by decide)

theorem supported_type_iff (type : Char) :
    supported_type type = true ↔ type ∈ (['i', 'c', 'f', 'd'] : List Char) := by
  simp [supported_type]
  tauto

/-- C9: an `mpi_send()` or `mpi_receive()` whose type code is not one of
`'i'`, `'c'`, `'f'`, `'d'` hits the fatal `default:` switch branch
(one-line diagnostic, then `exit(EXIT_FAILURE)`, modelled as
`Except.error`); every code in that set avoids the fatal branch. -/
theorem mpi_send_receive_type_dispatch {α : Type} (n n' : Nat) (type : Char)
    (buf out : List α) (msg : Message α) :
    (type ∉ (['i', 'c', 'f', 'd'] : List Char) →
      mpi_send n type buf = Except.error "invalid type" ∧
      mpi_receive n' type out msg = Except.error "invalid type") ∧
    (type ∈ (['i', 'c', 'f', 'd'] : List Char) →
      (∃ m, mpi_send n type buf = Except.ok m) ∧
      ∃ res, mpi_receive n' type out msg = Except.ok res) := by
  constructor
  · intro hmem
    have hty : supported_type type = false := by
      cases h2 : supported_type type
      · rfl
      · exact absurd ((supported_type_iff type).mp h2) hmem
    exact ⟨by simp [mpi_send, hty], by simp [mpi_receive, hty]⟩
  · intro hmem
    have hty : supported_type type = true := (supported_type_iff type).mpr hmem
    exact ⟨⟨⟨n, buf.take n⟩, by simp [mpi_send, hty]⟩,
      ⟨msg.payload.take (min n' msg.header) ++ out.drop (min n' msg.header),
        by simp [mpi_receive, hty]⟩⟩

/-- Witness for C9 at the invalid code `'x'` and the valid code `'d'`. -/
theorem mpi_send_receive_type_dispatch_witness :
    (mpi_send 2 'x' ([3, 4] : List Int) = Except.error "invalid type" ∧
      mpi_receive 2 'x' ([0, 0] : List Int) ⟨2, [3, 4]⟩ = Except.error "invalid type") ∧
    ((∃ m, mpi_send 2 'd' ([3, 4] : List Int) = Except.ok m) ∧
      ∃ res, mpi_receive 2 'd' ([0, 0] : List Int) ⟨2, [3, 4]⟩ = Except.ok res) :=
  ⟨(mpi_send_receive_type_dispatch 2 2 'x' [3, 4] [0, 0] ⟨2, [3, 4]⟩).1 (by decide),
    (mpi_send_receive_type_dispatch 2 2 'd' [3, 4] [0, 0] ⟨2, [3, 4]⟩).2 (by decide)⟩

/-- C6: in distributed mode an `mpi_matrix_set()` call whose row `p` lies
outside the caller's ownership range `[first, last)` is a silent no-op on
the handle; in local (single-process dense) mode every call takes effect
unconditionally. -/
theorem mpi_matrix_set_ownership (m : mpi_matrix_petsc) (p q : Nat) (x : Int)
    (hout : p < m.first ∨ m.last ≤ p) :
    mpi_matrix_set_petsc m p q x = m ∧
    (∀ ml : mpi_matrix_local, (mpi_matrix_set_local ml p q x).entries p q = x) := by
  constructor
  · unfold mpi_matrix_set_petsc
    rw [if_neg]
    rintro ⟨h1, h2⟩
    omega
  · intro ml
    simp [mpi_matrix_set_local]

/-- Witness for C6: a 4×4 handle owning rows `[1, 3)`, set at row 3. -/
theorem mpi_matrix_set_ownership_witness :
    mpi_matrix_set_petsc ⟨4, 4, 1, 3, fun _ _ => 0⟩ 3 2 7 = ⟨4, 4, 1, 3, fun _ _ => 0⟩ ∧
    (∀ ml : mpi_matrix_local, (mpi_matrix_set_local ml 3 2 7).entries 3 2 = 7) :=
  mpi_matrix_set_ownership ⟨4, 4, 1, 3, fun _ _ => 0⟩ 3 2 7 (Or.inr (by norm_num))

/-- C7: eigensolver dispatch — the distributed branch configures the
iterative solver to request `n` eigenpairs from the chosen spectral end
(largest-real when `up`, smallest-real otherwise) with subspace dimension
`2*n + 10`, and returns the backend's converged count; the local branch
returns the matrix row count (the total number of eigenvalues of the full
dense decomposition), ignoring `n`, `max_step`, `tol` and `up`. -/
theorem mpi_matrix_sparse_eigen_dispatch (converged : eps_config → Nat)
    (m : mpi_matrix_local) (n max_step : Nat) (tol : ℚ) (up : Bool) :
    mpi_matrix_sparse_eigen_petsc converged n max_step tol up =
      converged
        { nev := n
          ncv := 2 * n + 10
          which := if up then eps_which.largest_real else eps_which.smallest_real
          max_step := max_step
          tol := tol } ∧
    mpi_matrix_sparse_eigen_local m n max_step tol up = m.max_row ∧
    (∀ n2 max_step2 tol2 up2,
      mpi_matrix_sparse_eigen_local m n max_step tol up =
        mpi_matrix_sparse_eigen_local m n2 max_step2 tol2 up2) :=
  ⟨rfl, rfl, fun _ _ _ _ => rfl⟩

/-- C2 evidence: on the legal input `n_min = 1`, `n_max = 5` over a
10-element vector, the local branch of `mpi_vector_write()` writes
`n_max = 5` doubles (elements 1..5) because its `fwrite` count argument is
`n_max`, while the distributed branch of the same function writes
`n_max - n_min = 4` doubles for the same requested range. -/
theorem mpi_vector_write_local_count_bug :
    (mpi_vector_write_local [0, 1, 2, 3, 4, 5, 6, 7, 8, 9] 1 5).length = 5 ∧
    mpi_vector_write_local [0, 1, 2, 3, 4, 5, 6, 7, 8, 9] 1 5 = [1, 2, 3, 4, 5] ∧
    (mpi_vector_write_petsc [(0, 5), (5, 10)] (fun i => (i : Int)) 1 5).length = 4 :=
  ⟨by decide, by decide, by decide⟩

theorem gather_trace_from_rank_le {k n_min n_max : Nat} {ownership : List (Nat × Nat)}
    {p : Nat × Nat} (hp : p ∈ gather_trace_from k ownership n_min n_max) : k ≤ p.1 := by
  induction ownership generalizing k with
  | nil => simp [gather_trace_from] at hp
  | cons fl rest ih =>
    simp only [gather_trace_from, List.mem_append, List.mem_map] at hp
    rcases hp with ⟨i, hi, rfl⟩ | hp
    · exact Nat.le_refl k
    · exact le_trans (Nat.le_succ k) (ih hp)

theorem gather_trace_from_pairwise (k n_min n_max : Nat) (ownership : List (Nat × Nat)) :
    List.Pairwise (fun a b : Nat × Nat => a.1 < b.1 ∨ (a.1 = b.1 ∧ a.2 < b.2))
      (gather_trace_from k ownership n_min n_max) := by
  induction ownership generalizing k with
  | nil => exact List.Pairwise.nil
  | cons fl rest ih =>
    simp only [gather_trace_from]
    rw [List.pairwise_append]
    refine ⟨?_, ih (k + 1), ?_⟩
    · rw [List.pairwise_map]
      refine List.Pairwise.imp ?_ (List.pairwise_lt_range' _ _)
      intro a b hab
      exact Or.inr ⟨rfl, hab⟩
    · intro x hx y hy
      rcases List.mem_map.mp hx with ⟨i, hi, rfl⟩
      have hk := gather_trace_from_rank_le hy
      exact Or.inl (by omega)

theorem gather_trace_from_map_value (value : Nat → Int) (n_min n_max k : Nat)
    (ownership : List (Nat × Nat)) :
    (gather_trace_from k ownership n_min n_max).map (fun p => value p.2) =
      ownership.flatMap (fun fl => (send_indices fl.1 fl.2 n_min n_max).map value) := by
  induction ownership generalizing k with
  | nil => rfl
  | cons fl rest ih =>
    simp only [gather_trace_from, List.map_append, List.map_map, List.flatMap_cons]
    rw [ih]
    rfl

theorem mpi_vector_write_petsc_eq_flatMap (ownership : List (Nat × Nat))
    (value : Nat → Int) (n_min n_max : Nat) :
    mpi_vector_write_petsc ownership value n_min n_max =
      ownership.flatMap (fun fl => (send_indices fl.1 fl.2 n_min n_max).map value) := by
  cases ownership with
  | nil => rfl
  | cons fl0 rest => simp [mpi_vector_write_petsc, List.flatMap_cons]

/-- C8: the distributed `mpi_vector_write()` output is exactly the values
of the gather trace — the root's own in-range elements first, then the
elements of ranks `1, …, size-1` in ascending rank order — and that trace
is strictly sorted by ascending source rank, then by ascending element
index within each rank's ownership range (each rank contributes its owned
elements intersected with `[n_min, n_max)` in ascending index order, one
value per message). -/
theorem mpi_vector_write_gather_order (ownership : List (Nat × Nat)) (value : Nat → Int)
    (n_min n_max : Nat) :
    mpi_vector_write_petsc ownership value n_min n_max =
      (gather_trace ownership n_min n_max).map (fun p => value p.2) ∧
    List.Pairwise (fun a b : Nat × Nat => a.1 < b.1 ∨ (a.1 = b.1 ∧ a.2 < b.2))
      (gather_trace ownership n_min n_max) := by
  constructor
  · rw [mpi_vector_write_petsc_eq_flatMap, gather_trace, gather_trace_from_map_value]
  · exact gather_trace_from_pairwise 0 n_min n_max ownership

end Cscatt
